import Mathlib

/-!
Verification of the bookmark synchronizer (src/bookmark_sync.py).

The canonical in-memory node is a Python dict.  Extraction produces exactly two
dict shapes, `{'type': 'url', 'title': t, 'url': u}` and
`{'type': 'folder', 'name': n, 'children': cs}`, but the merge can also write
extra keys onto an existing dict (a title onto a folder, children onto a url
item) when the two key spaces collide.  We therefore model an item as a record
carrying every key the program ever reads or writes, with `Option` for the
scalar keys (`none` = key absent).  A missing `children` key and
`'children': []` are identified, because the program only ever reads children
through `.get('children', [])` and no claim distinguishes the two.

Where the Python program would raise `KeyError` (reading `item['url']`,
`item['title']` or `item['name']` on a dict lacking the key), the model totalizes
with `Option.getD ""`; every claim is stated on inputs where the key is present,
so the divergence is confined to inputs on which the program crashes.
-/

set_option autoImplicit false

namespace BookmarkSync

/-- A canonical bookmark item: the dict shape handled by
`merge_bookmark_trees`, `create_safari_tree` and `create_chrome_tree`. -/
inductive Item : Type where
  | mk (ty : String) (title : Option String) (url : Option String)
      (name : Option String) (children : List Item)

/-- The `'type'` value of the dict. -/
def Item.ty : Item → String
  | .mk t _ _ _ _ => t

/-- The `'title'` value of the dict, `none` when the key is absent. -/
def Item.title : Item → Option String
  | .mk _ t _ _ _ => t

/-- The `'url'` value of the dict, `none` when the key is absent. -/
def Item.url : Item → Option String
  | .mk _ _ u _ _ => u

/-- The `'name'` value of the dict, `none` when the key is absent. -/
def Item.name : Item → Option String
  | .mk _ _ _ n _ => n

/-- The value of `item.get('children', [])`. -/
def Item.children : Item → List Item
  | .mk _ _ _ _ c => c

/-- Write the `'title'` key of the dict (in-place `item['title'] = v` in the
source becomes a functional update here). -/
def Item.withTitle : Item → Option String → Item
  | .mk t _ u n c, v => .mk t v u n c

/-- Write the `'children'` key of the dict. -/
def Item.withChildren : Item → List Item → Item
  | .mk t ti u n _, c => .mk t ti u n c

/-- The dict `{'type': 'url', 'title': t, 'url': u}` produced by extraction. -/
def mkUrl (t u : String) : Item := .mk "url" (some t) (some u) none []

/-- The dict `{'type': 'folder', 'name': n, 'children': cs}` produced by
extraction. -/
def mkFolder (n : String) (cs : List Item) : Item := .mk "folder" none none (some n) cs

/-- The key expression of `merge_bookmark_trees` (lines 88 and 93):
`f"folder_{item['name']}" if item['type'] == 'folder' else item['url']`. -/
def itemKey (item : Item) : String :=
  if item.ty = "folder" then "folder_" ++ item.name.getD "" else item.url.getD ""

/-- An insertion-ordered string-keyed mapping, modelling the Python dict
`merged_map` (Python dicts preserve insertion order; assigning to an existing
key keeps its position and replaces the value). -/
abbrev KMap := List (String × Item)

/-- `m[k]` lookup: the value at the first (and in a dict, only) matching key. -/
def mapFind : KMap → String → Option Item
  | [], _ => none
  | (k', v) :: rest, k => if k' = k then some v else mapFind rest k

/-- `m[k] = v` assignment: replaces the value at an existing key in place,
otherwise appends the pair at the end. -/
def mapSet : KMap → String → Item → KMap
  | [], k, v => [(k, v)]
  | (k', v') :: rest, k, v =>
      if k' = k then (k', v) :: rest else (k', v') :: mapSet rest k v

/-- The first loop of `merge_bookmark_trees` (lines 87-89): insert every item
of `tree1` into the mapping under its key. -/
def buildMap : KMap → List Item → KMap
  | m, [] => m
  | m, item :: rest => buildMap (mapSet m (itemKey item) item) rest

mutual

/-- `merge_bookmark_trees` (lines 77-109): build the ordered mapping from
`tree1`, fold `tree2` into it, return the mapping's values in order. -/
def merge_bookmark_trees (tree1 tree2 : List Item) : List Item :=
  (mergeInto (buildMap [] tree1) tree2).map Prod.snd
termination_by sizeOf tree2 * 2 + 1

/-- The second loop of `merge_bookmark_trees` (lines 92-107): fold the items of
`tree2` into the mapping one by one. -/
def mergeInto : KMap → List Item → KMap
  | m, [] => m
  | m, item :: rest =>
      match mapFind m (itemKey item) with
      | some existing =>
          if item.ty = "folder" then
            mergeInto
              (mapSet m (itemKey item)
                (existing.withChildren
                  (merge_bookmark_trees existing.children item.children))) rest
          else
            mergeInto (mapSet m (itemKey item) (existing.withTitle item.title)) rest
      | none => mergeInto (mapSet m (itemKey item) item) rest
termination_by _ l => sizeOf l * 2
decreasing_by
  all_goals simp_wf
  all_goals first
    | omega
    | (cases item with
       | mk t ti u n c => simp [Item.children]; omega)

end

/-- Python truthiness of an optional string value: `None` and the empty string
are falsy (this is the `if url:` test of the extractors). -/
def pyTruthy : Option String → Bool
  | none => false
  | some s => !(s == "")

/-- A Safari plist node, as read by `extract_safari_bookmarks`: the keys
`WebBookmarkType`, `URLString`, `URIDictionary` (only its `title` entry is ever
read; a missing dictionary and a dictionary without `title` are identified as
`none`), `Title`, and `Children` (missing identified with `[]`, matching
`node.get('Children', [])`). -/
inductive SNode : Type where
  | mk (webBookmarkType : Option String) (urlString : Option String)
      (uriTitle : Option String) (titleKey : Option String) (children : List SNode)

/-- The `'WebBookmarkType'` value. -/
def SNode.webBookmarkType : SNode → Option String
  | .mk w _ _ _ _ => w

/-- The `'URLString'` value. -/
def SNode.urlString : SNode → Option String
  | .mk _ u _ _ _ => u

/-- The `'title'` entry of the `'URIDictionary'` value. -/
def SNode.uriTitle : SNode → Option String
  | .mk _ _ t _ _ => t

/-- The `'Title'` value. -/
def SNode.titleKey : SNode → Option String
  | .mk _ _ _ t _ => t

/-- The value of `node.get('Children', [])`. -/
def SNode.children : SNode → List SNode
  | .mk _ _ _ _ c => c

/-- `extract_safari_bookmarks` (lines 30-54): recursively extract Safari plist
nodes into the canonical format, skipping the `com.apple.ReadingList` folder,
leaves without a truthy URL, and nodes of unrecognized type. -/
def extract_safari_bookmarks : List SNode → List Item
  | [] => []
  | SNode.mk wbt urlString uriTitle titleKey children :: rest =>
      if wbt = some "WebBookmarkTypeLeaf" then
        let url := urlString
        let title := match uriTitle with
          | some t => some t
          | none => url
        if pyTruthy url then
          Item.mk "url" title url none [] :: extract_safari_bookmarks rest
        else
          extract_safari_bookmarks rest
      else if wbt = some "WebBookmarkTypeList" then
        let folderName := titleKey.getD ""
        if folderName = "com.apple.ReadingList" then
          extract_safari_bookmarks rest
        else
          Item.mk "folder" none none (some folderName) (extract_safari_bookmarks children)
            :: extract_safari_bookmarks rest
      else
        extract_safari_bookmarks rest

/-- A Chrome JSON node, as read by `extract_chrome_bookmarks`: the keys
`type`, `url`, `name`, and `children` (missing identified with `[]`, matching
`node.get('children', [])`). -/
inductive CNode : Type where
  | mk (ctype : Option String) (url : Option String)
      (cname : Option String) (children : List CNode)

/-- The `'type'` value. -/
def CNode.ctype : CNode → Option String
  | .mk t _ _ _ => t

/-- The `'url'` value. -/
def CNode.url : CNode → Option String
  | .mk _ u _ _ => u

/-- The `'name'` value. -/
def CNode.cname : CNode → Option String
  | .mk _ _ n _ => n

/-- The value of `node.get('children', [])`. -/
def CNode.children : CNode → List CNode
  | .mk _ _ _ c => c

/-- `extract_chrome_bookmarks` (lines 56-75): recursively extract Chrome JSON
nodes into the canonical format, skipping leaves without a truthy URL and
nodes of unrecognized type.  Note: there is no reading-list exclusion here. -/
def extract_chrome_bookmarks : List CNode → List Item
  | [] => []
  | CNode.mk ctype curl cname children :: rest =>
      if ctype = some "url" then
        let url := curl
        let title := match cname with
          | some t => some t
          | none => url
        if pyTruthy url then
          Item.mk "url" title url none [] :: extract_chrome_bookmarks rest
        else
          extract_chrome_bookmarks rest
      else if ctype = some "folder" then
        Item.mk "folder" none none (some (cname.getD "")) (extract_chrome_bookmarks children)
          :: extract_chrome_bookmarks rest
      else
        extract_chrome_bookmarks rest

/-- `create_safari_tree` (lines 111-129): convert a canonical tree back into
Safari plist nodes.  Reading `item['title']`, `item['url']` and `item['name']`
would raise on a dict lacking the key; the model totalizes with `getD ""`. -/
def create_safari_tree : List Item → List SNode
  | [] => []
  | Item.mk ty title url name children :: rest =>
      if ty = "url" then
        SNode.mk (some "WebBookmarkTypeLeaf") (some (url.getD "")) (some (title.getD "")) none []
          :: create_safari_tree rest
      else if ty = "folder" then
        SNode.mk (some "WebBookmarkTypeList") none none (some (name.getD "")) (create_safari_tree children)
          :: create_safari_tree rest
      else
        create_safari_tree rest

/-- `create_chrome_tree` (lines 131-149): convert a canonical tree back into
Chrome JSON nodes. -/
def create_chrome_tree : List Item → List CNode
  | [] => []
  | Item.mk ty title url name children :: rest =>
      if ty = "url" then
        CNode.mk (some "url") (some (url.getD "")) (some (title.getD "")) []
          :: create_chrome_tree rest
      else if ty = "folder" then
        CNode.mk (some "folder") none (some (name.getD "")) (create_chrome_tree children)
          :: create_chrome_tree rest
      else
        create_chrome_tree rest

/-- No item of `l` has identity key `k`. -/
def noKey (k : String) (l : List Item) : Bool :=
  l.all (fun j => !(itemKey j == k))

/-- The identity keys of the items of `l` are pairwise distinct (one level). -/
def keysDistinctB : List Item → Bool
  | [] => true
  | i :: rest => noKey (itemKey i) rest && keysDistinctB rest

/-- The identity keys are pairwise distinct at every level of the tree. -/
def treeDistinct : List Item → Bool
  | [] => true
  | Item.mk ty ti u n c :: rest =>
      noKey (itemKey (Item.mk ty ti u n c)) rest && treeDistinct c && treeDistinct rest

/-- A canonical tree in the sense of the data model: every node is either a
Bookmark dict `{'type': 'url', 'title': t, 'url': u}` with a nonempty URL, or a
Folder dict `{'type': 'folder', 'name': n, 'children': cs}` whose name is not
the reserved reading-list identifier, with canonical children. -/
def canonicalList : List Item → Bool
  | [] => true
  | Item.mk ty title url name children :: rest =>
      ((ty == "url") && title.isSome && url.isSome && !(url.getD "" == "")
          && name.isNone && children.isEmpty
        || (ty == "folder") && title.isNone && url.isNone && name.isSome
          && !(name.getD "" == "com.apple.ReadingList") && canonicalList children)
      && canonicalList rest

/-- Every node of the tree is tagged `'url'` or `'folder'`, at every depth. -/
def wellTagged : List Item → Bool
  | [] => true
  | Item.mk ty _ _ _ children :: rest =>
      ((ty == "url") || (ty == "folder")) && wellTagged children && wellTagged rest

/-- Some node of the tree, at some depth, has the reserved reading-list
identifier as its `'name'` value. -/
def containsReadingList : List Item → Bool
  | [] => false
  | Item.mk _ _ _ name children :: rest =>
      name == some "com.apple.ReadingList" || containsReadingList children
        || containsReadingList rest

/-- The update `merge_bookmark_trees` applies to the mapping entry `i` when the
incoming secondary item `j` carries the same key: the branch of lines 95-104. -/
def applyUpd (j i : Item) : Item :=
  if j.ty = "folder" then i.withChildren (merge_bookmark_trees i.children j.children)
  else i.withTitle j.title

/-- The net effect of the whole secondary tree `s` on a primary entry `i`:
the update by the unique `s`-item sharing `i`'s key, if any. -/
def updBy (s : List Item) (i : Item) : Item :=
  match s.find? (fun j => itemKey j == itemKey i) with
  | some j => applyUpd j i
  | none => i

/-- The key of `j` is absent from `p`: `j` is a strictly-new entry. -/
def newIn (p : List Item) (j : Item) : Bool :=
  p.all (fun i => !(itemKey i == itemKey j))

/-! Basic facts about the item projections and the ordered mapping. -/

@[simp] theorem Item.ty_mk (t : String) (ti u n : Option String) (c : List Item) :
    (Item.mk t ti u n c).ty = t := rfl

@[simp] theorem Item.title_mk (t : String) (ti u n : Option String) (c : List Item) :
    (Item.mk t ti u n c).title = ti := rfl

@[simp] theorem Item.url_mk (t : String) (ti u n : Option String) (c : List Item) :
    (Item.mk t ti u n c).url = u := rfl

@[simp] theorem Item.name_mk (t : String) (ti u n : Option String) (c : List Item) :
    (Item.mk t ti u n c).name = n := rfl

@[simp] theorem Item.children_mk (t : String) (ti u n : Option String) (c : List Item) :
    (Item.mk t ti u n c).children = c := rfl

@[simp] theorem Item.withTitle_mk (t : String) (ti u n : Option String) (c : List Item)
    (v : Option String) : (Item.mk t ti u n c).withTitle v = Item.mk t v u n c := rfl

@[simp] theorem Item.withChildren_mk (t : String) (ti u n : Option String) (c c' : List Item) :
    (Item.mk t ti u n c).withChildren c' = Item.mk t ti u n c' := rfl

@[simp] theorem Item.withTitle_title_self (i : Item) : i.withTitle i.title = i := by
  cases i; rfl

@[simp] theorem Item.withChildren_children_self (i : Item) : i.withChildren i.children = i := by
  cases i; rfl

@[simp] theorem itemKey_withTitle (i : Item) (v : Option String) :
    itemKey (i.withTitle v) = itemKey i := by
  cases i; simp [itemKey]

@[simp] theorem itemKey_withChildren (i : Item) (c : List Item) :
    itemKey (i.withChildren c) = itemKey i := by
  cases i; simp [itemKey]

theorem itemKey_applyUpd (j i : Item) : itemKey (applyUpd j i) = itemKey i := by
  unfold applyUpd
  split <;> simp

@[simp] theorem itemKey_mkUrl (t u : String) : itemKey (mkUrl t u) = u := by
  simp [itemKey, mkUrl]

@[simp] theorem itemKey_mkFolder (n : String) (cs : List Item) :
    itemKey (mkFolder n cs) = "folder_" ++ n := by
  simp [itemKey, mkFolder]

@[simp] theorem mapFind_nil (k : String) : mapFind [] k = none := rfl

theorem mapFind_append_some {a : KMap} (b : KMap) {k : String} {v : Item}
    (h : mapFind a k = some v) : mapFind (a ++ b) k = some v := by
  induction a with
  | nil => simp [mapFind] at h
  | cons p rest ih =>
      obtain ⟨k', v'⟩ := p
      by_cases hk : k' = k
      · simp [mapFind, hk] at h ⊢
        exact h
      · simp [mapFind, hk] at h ⊢
        exact ih h

theorem mapFind_append_none {a : KMap} (b : KMap) {k : String}
    (h : mapFind a k = none) : mapFind (a ++ b) k = mapFind b k := by
  induction a with
  | nil => simp
  | cons p rest ih =>
      obtain ⟨k', v'⟩ := p
      by_cases hk : k' = k
      · simp [mapFind, hk] at h
      · simp [mapFind, hk] at h ⊢
        exact ih h

theorem mapSet_append_some {a : KMap} (b : KMap) {k : String} (v : Item)
    (h : (mapFind a k).isSome) : mapSet (a ++ b) k v = mapSet a k v ++ b := by
  induction a with
  | nil => simp [mapFind] at h
  | cons p rest ih =>
      obtain ⟨k', v'⟩ := p
      by_cases hk : k' = k
      · simp [mapSet, hk]
      · simp [mapFind, hk] at h
        simp [mapSet, hk, ih h]

theorem mapSet_of_find_none {m : KMap} {k : String} (v : Item)
    (h : mapFind m k = none) : mapSet m k v = m ++ [(k, v)] := by
  induction m with
  | nil => rfl
  | cons p rest ih =>
      obtain ⟨k', v'⟩ := p
      by_cases hk : k' = k
      · simp [mapFind, hk] at h
      · simp [mapFind, hk] at h
        simp [mapSet, hk, ih h]

theorem mapSet_find_self {m : KMap} {k : String} {v : Item}
    (h : mapFind m k = some v) : mapSet m k v = m := by
  induction m with
  | nil => simp [mapFind] at h
  | cons p rest ih =>
      obtain ⟨k', v'⟩ := p
      by_cases hk : k' = k
      · simp [mapFind, hk] at h
        simp [mapSet, hk, h]
      · simp [mapFind, hk] at h
        simp [mapSet, hk, ih h]

/-- Looking up a key in a mapping of the form
`l.map (fun i => (itemKey i, g i))` is a `find?` over `l`. -/
theorem mapFind_keyed (g : Item → Item) (l : List Item) (k : String) :
    mapFind (l.map (fun i => (itemKey i, g i))) k
      = (l.find? (fun i => itemKey i == k)).map g := by
  induction l with
  | nil => simp
  | cons i rest ih =>
      by_cases hk : itemKey i = k
      · rw [List.map_cons, List.find?_cons_of_pos _ (by simpa using hk)]
        simp [mapFind, hk]
      · rw [List.map_cons, List.find?_cons_of_neg _ (by simpa using hk)]
        simp only [mapFind, if_neg hk]
        exact ih

theorem mapFind_keyed_none (g : Item → Item) {l : List Item} {k : String}
    (h : ∀ i ∈ l, itemKey i ≠ k) :
    mapFind (l.map (fun i => (itemKey i, g i))) k = none := by
  rw [mapFind_keyed]
  have : l.find? (fun i => itemKey i == k) = none := by
    simp only [List.find?_eq_none]
    intro x hx
    simpa using h x hx
  simp [this]

/-- Unfolding of `noKey` into a universally quantified inequality. -/
theorem noKey_iff {k : String} {l : List Item} :
    noKey k l = true ↔ ∀ j ∈ l, itemKey j ≠ k := by
  simp [noKey]

/-- Setting a key that occurs in a keyed mapping (with pairwise distinct keys)
rewrites exactly the matching entry. -/
theorem mapSet_keyed (g : Item → Item) {l : List Item} {k : String} (v : Item)
    (hd : keysDistinctB l = true) {i₀ : Item}
    (hf : l.find? (fun i => itemKey i == k) = some i₀) :
    mapSet (l.map (fun i => (itemKey i, g i))) k v
      = l.map (fun i => (itemKey i, if itemKey i = k then v else g i)) := by
  induction l with
  | nil => simp at hf
  | cons a rest ih =>
      simp only [keysDistinctB, Bool.and_eq_true] at hd
      obtain ⟨hnk, hrest⟩ := hd
      have hno : ∀ j ∈ rest, itemKey j ≠ itemKey a := noKey_iff.mp hnk
      by_cases hk : itemKey a = k
      · have hcong :
            rest.map (fun i => ((itemKey i, if itemKey i = k then v else g i) : String × Item))
              = rest.map (fun i => (itemKey i, g i)) := by
          apply List.map_congr_left
          intro i hi
          have hik : ¬ itemKey i = k := by
            rw [← hk]
            exact hno i hi
          rw [if_neg hik]
        simp only [List.map_cons, mapSet, if_pos hk, hcong]
      · rw [List.find?_cons_of_neg _ (by simpa using hk)] at hf
        simp only [List.map_cons, mapSet, if_neg hk]
        rw [ih hrest hf]

/-- In a list with pairwise-distinct keys, equal keys force equal items. -/
theorem key_unique {l : List Item} (hd : keysDistinctB l = true) {a b : Item}
    (ha : a ∈ l) (hb : b ∈ l) (hk : itemKey a = itemKey b) : a = b := by
  induction l with
  | nil => simp at ha
  | cons x rest ih =>
      simp only [keysDistinctB, Bool.and_eq_true] at hd
      obtain ⟨hnk, hrest⟩ := hd
      have hno : ∀ j ∈ rest, itemKey j ≠ itemKey x := by simpa [noKey] using hnk
      rcases List.mem_cons.mp ha with rfl | ha'
      · rcases List.mem_cons.mp hb with rfl | hb'
        · rfl
        · exact absurd hk.symm (hno b hb')
      · rcases List.mem_cons.mp hb with rfl | hb'
        · exact absurd hk (hno a ha')
        · exact ih hrest ha' hb'

/-- In a list with pairwise-distinct keys, `find?` by the key of a member
returns that member. -/
theorem find?_key_self {l : List Item} (hd : keysDistinctB l = true) {i : Item}
    (hm : i ∈ l) : l.find? (fun j => itemKey j == itemKey i) = some i := by
  induction l with
  | nil => simp at hm
  | cons x rest ih =>
      simp only [keysDistinctB, Bool.and_eq_true] at hd
      obtain ⟨hnk, hrest⟩ := hd
      have hno : ∀ j ∈ rest, itemKey j ≠ itemKey x := by simpa [noKey] using hnk
      rcases List.mem_cons.mp hm with rfl | hm'
      · rw [List.find?_cons_of_pos _ (by simp)]
      · have hxk : itemKey x ≠ itemKey i := fun h => hno i hm' h.symm
        rw [List.find?_cons_of_neg _ (by simpa using hxk)]
        exact ih hrest hm'

/-- In `xs ++ y :: ys` with pairwise distinct keys, no element of `xs` shares
`y`'s key. -/
theorem keysDistinctB_middle {xs ys : List Item} {y : Item}
    (h : keysDistinctB (xs ++ y :: ys) = true) : ∀ x ∈ xs, itemKey x ≠ itemKey y := by
  induction xs with
  | nil => simp
  | cons a rest ih =>
      simp only [List.cons_append, keysDistinctB, Bool.and_eq_true] at h
      obtain ⟨hnk, hrest⟩ := h
      have hno : ∀ j ∈ rest ++ y :: ys, itemKey j ≠ itemKey a := noKey_iff.mp hnk
      intro x hx
      rcases List.mem_cons.mp hx with rfl | hx'
      · exact fun hk => hno y (by simp) hk.symm
      · exact ih hrest x hx'

theorem keysDistinctB_suffix {xs ys : List Item}
    (h : keysDistinctB (xs ++ ys) = true) : keysDistinctB ys = true := by
  induction xs with
  | nil => simpa using h
  | cons a rest ih =>
      simp only [List.cons_append, keysDistinctB, Bool.and_eq_true] at h
      exact ih h.2

@[simp] theorem updBy_nil (i : Item) : updBy [] i = i := rfl

theorem updBy_of_no_match {done : List Item} {i : Item}
    (h : ∀ d ∈ done, itemKey d ≠ itemKey i) : updBy done i = i := by
  unfold updBy
  have : done.find? (fun j => itemKey j == itemKey i) = none := by
    simp only [List.find?_eq_none]
    intro x hx
    simpa using h x hx
  rw [this]

theorem updBy_append_no_match {done : List Item} {j i : Item}
    (h : itemKey j ≠ itemKey i) : updBy (done ++ [j]) i = updBy done i := by
  unfold updBy
  rw [List.find?_append]
  have : [j].find? (fun j' => itemKey j' == itemKey i) = none := by
    simp [h]
  rw [this, Option.or_none]

theorem updBy_append_match {done : List Item} {j i : Item}
    (hd : ∀ d ∈ done, itemKey d ≠ itemKey i) (h : itemKey j = itemKey i) :
    updBy (done ++ [j]) i = applyUpd j i := by
  unfold updBy
  rw [List.find?_append]
  have h1 : done.find? (fun j' => itemKey j' == itemKey i) = none := by
    simp only [List.find?_eq_none]
    intro x hx
    simpa using hd x hx
  have h2 : [j].find? (fun j' => itemKey j' == itemKey i) = some j := by
    simp [h]
  rw [h1, h2, Option.none_or]

theorem newIn_iff {p : List Item} {j : Item} :
    newIn p j = true ↔ ∀ i ∈ p, itemKey i ≠ itemKey j := by
  simp [newIn]

theorem newIn_false_of_mem {p : List Item} {i₀ j : Item} (hm : i₀ ∈ p)
    (hk : itemKey i₀ = itemKey j) : newIn p j = false := by
  rw [← Bool.not_eq_true, newIn_iff]
  intro h
  exact h i₀ hm hk

/-! Step equations for the second merge loop. -/

@[simp] theorem mergeInto_nil (m : KMap) : mergeInto m [] = m := by
  unfold mergeInto
  rfl

/-- When the incoming item's key is present, the loop body rewrites the
existing entry with `applyUpd` (this is the `if key in merged_map` branch,
lines 94-104). -/
theorem mergeInto_cons_found {m : KMap} {item : Item} (rest : List Item) {e : Item}
    (hf : mapFind m (itemKey item) = some e) :
    mergeInto m (item :: rest)
      = mergeInto (mapSet m (itemKey item) (applyUpd item e)) rest := by
  unfold applyUpd
  conv_lhs => rw [mergeInto]
  rw [hf]
  split
  · next existing heq =>
      injection heq with hh
      subst hh
      split
      · rfl
      · rfl
  · next heq => exact absurd heq (by simp)

/-- When the incoming item's key is absent, the loop body appends it
(lines 105-107). -/
theorem mergeInto_cons_new {m : KMap} {item : Item} (rest : List Item)
    (hf : mapFind m (itemKey item) = none) :
    mergeInto m (item :: rest) = mergeInto (mapSet m (itemKey item) item) rest := by
  conv_lhs => rw [mergeInto]
  rw [hf]

/-- With pairwise-distinct keys, the first merge loop lays `tree1` out as an
ordered mapping in its original order. -/
theorem buildMap_nodup : ∀ (l : List Item) (acc : KMap),
    keysDistinctB l = true → (∀ i ∈ l, mapFind acc (itemKey i) = none) →
    buildMap acc l = acc ++ l.map (fun i => (itemKey i, i))
  | [], acc, _, _ => by simp [buildMap]
  | a :: rest, acc, hd, hacc => by
      simp only [keysDistinctB, Bool.and_eq_true] at hd
      obtain ⟨hnk, hrest⟩ := hd
      have hno : ∀ j ∈ rest, itemKey j ≠ itemKey a := noKey_iff.mp hnk
      have hset : mapSet acc (itemKey a) a = acc ++ [(itemKey a, a)] :=
        mapSet_of_find_none a (hacc a (by simp))
      have hacc' : ∀ i ∈ rest, mapFind (acc ++ [(itemKey a, a)]) (itemKey i) = none := by
        intro i hi
        rw [mapFind_append_none _ (hacc i (by simp [hi]))]
        have hne : ¬ itemKey a = itemKey i := fun h => hno i hi h.symm
        simp [mapFind, hne]
      rw [buildMap, hset, buildMap_nodup rest (acc ++ [(itemKey a, a)]) hrest hacc']
      simp

/-- Invariant of the second merge loop: with the already-processed secondary
prefix `done` absorbed, the mapping consists of primary's entries (each updated
by its matching processed item, if any) followed by the strictly-new processed
items; absorbing the remaining `todo` preserves this shape. -/
theorem mergeInto_structure :
    ∀ (todo done p : List Item),
      keysDistinctB p = true → keysDistinctB (done ++ todo) = true →
      mergeInto
          (p.map (fun i => (itemKey i, updBy done i))
            ++ (done.filter (fun x => newIn p x)).map (fun x => (itemKey x, x)))
          todo
        = p.map (fun i => (itemKey i, updBy (done ++ todo) i))
            ++ ((done ++ todo).filter (fun x => newIn p x)).map (fun x => (itemKey x, x))
  | [], done, p, _, _ => by simp
  | j :: rest, done, p, hp, hd => by
      have hdone_j : ∀ x ∈ done, itemKey x ≠ itemKey j := keysDistinctB_middle hd
      have hsplit : done ++ j :: rest = (done ++ [j]) ++ rest := by simp
      have hd' : keysDistinctB ((done ++ [j]) ++ rest) = true := by
        rw [← hsplit]
        exact hd
      rw [hsplit]
      rcases hfp : p.find? (fun i => itemKey i == itemKey j) with _ | i₀
      · -- the incoming key is absent from primary: the item is appended as new
        have hallne : ∀ i ∈ p, itemKey i ≠ itemKey j := by
          have hn := List.find?_eq_none.mp hfp
          intro i hi
          simpa using hn i hi
        have hnone1 :
            mapFind (p.map (fun i => (itemKey i, updBy done i))) (itemKey j) = none := by
          rw [mapFind_keyed, hfp]
          rfl
        have hnone2 :
            mapFind ((done.filter (fun x => newIn p x)).map (fun x => (itemKey x, x)))
              (itemKey j) = none := by
          apply mapFind_keyed_none
          intro x hx
          exact hdone_j x (List.mem_of_mem_filter hx)
        have hfind :
            mapFind (p.map (fun i => (itemKey i, updBy done i))
              ++ (done.filter (fun x => newIn p x)).map (fun x => (itemKey x, x)))
              (itemKey j) = none := by
          rw [mapFind_append_none _ hnone1]
          exact hnone2
        rw [mergeInto_cons_new rest hfind, mapSet_of_find_none j hfind]
        have hP : p.map (fun i => (itemKey i, updBy done i))
            = p.map (fun i => (itemKey i, updBy (done ++ [j]) i)) := by
          apply List.map_congr_left
          intro i hi
          rw [updBy_append_no_match (fun h => hallne i hi h.symm)]
        have hnew : newIn p j = true := newIn_iff.mpr hallne
        have hN : ((done ++ [j]).filter (fun x => newIn p x)).map (fun x => (itemKey x, x))
            = (done.filter (fun x => newIn p x)).map (fun x => (itemKey x, x))
              ++ [(itemKey j, j)] := by
          rw [List.filter_append]
          simp [hnew]
        rw [List.append_assoc, hP, ← hN]
        exact mergeInto_structure rest (done ++ [j]) p hp hd'
      · -- the incoming key is present in primary: the entry is updated in place
        have hk₀ : itemKey i₀ = itemKey j := by
          have hs := List.find?_some hfp
          simpa using hs
        have hmem : i₀ ∈ p := List.mem_of_find?_eq_some hfp
        have hupd : updBy done i₀ = i₀ :=
          updBy_of_no_match (fun d hdm h => hdone_j d hdm (h.trans hk₀))
        have hfound1 :
            mapFind (p.map (fun i => (itemKey i, updBy done i))) (itemKey j) = some i₀ := by
          rw [mapFind_keyed, hfp]
          simp [hupd]
        have hfind :
            mapFind (p.map (fun i => (itemKey i, updBy done i))
              ++ (done.filter (fun x => newIn p x)).map (fun x => (itemKey x, x)))
              (itemKey j) = some i₀ := mapFind_append_some _ hfound1
        rw [mergeInto_cons_found rest hfind]
        have hPsome :
            (mapFind (p.map (fun i => (itemKey i, updBy done i))) (itemKey j)).isSome := by
          rw [hfound1]
          rfl
        rw [mapSet_append_some _ _ hPsome, mapSet_keyed _ _ hp hfp]
        have hP : p.map (fun i =>
              (itemKey i, if itemKey i = itemKey j then applyUpd j i₀ else updBy done i))
            = p.map (fun i => (itemKey i, updBy (done ++ [j]) i)) := by
          apply List.map_congr_left
          intro i hi
          by_cases hik : itemKey i = itemKey j
          · have hii : i = i₀ := key_unique hp hi hmem (hik.trans hk₀.symm)
            subst hii
            rw [if_pos hik,
              updBy_append_match (fun d hdm h => hdone_j d hdm (h.trans hk₀)) hk₀.symm]
          · rw [if_neg hik, updBy_append_no_match (fun h => hik h.symm)]
        have hnewF : newIn p j = false := newIn_false_of_mem hmem hk₀
        have hN : ((done ++ [j]).filter (fun x => newIn p x)).map (fun x => (itemKey x, x))
            = (done.filter (fun x => newIn p x)).map (fun x => (itemKey x, x)) := by
          rw [List.filter_append]
          simp [hnewF]
        rw [hP, ← hN]
        exact mergeInto_structure rest (done ++ [j]) p hp hd'

/-- Structure of the merge when both levels have pairwise-distinct keys:
primary's entries in order, each with its update applied, followed by the
strictly-new entries of secondary in order. -/
theorem merge_structure (p s : List Item)
    (hp : keysDistinctB p = true) (hs : keysDistinctB s = true) :
    merge_bookmark_trees p s = p.map (updBy s) ++ s.filter (fun x => newIn p x) := by
  have hbuild : buildMap [] p = p.map (fun i => (itemKey i, i)) := by
    have hb := buildMap_nodup p [] hp (by intro i _; rfl)
    simpa using hb
  have hmain := mergeInto_structure s [] p hp (by simpa using hs)
  simp only [List.filter_nil, List.map_nil, List.append_nil, List.nil_append,
    updBy_nil] at hmain
  rw [merge_bookmark_trees, hbuild, hmain]
  simp only [List.map_append, List.map_map]
  have h1 : (Prod.snd ∘ fun i => (itemKey i, updBy s i)) = updBy s := rfl
  have h2 : (Prod.snd ∘ fun (i : Item) => (itemKey i, i)) = id := rfl
  rw [h1, h2, List.map_id]

/-- Tree-wide key distinctness gives one-level key distinctness. -/
theorem treeDistinct_keysDistinctB : ∀ {l : List Item},
    treeDistinct l = true → keysDistinctB l = true
  | [], _ => rfl
  | Item.mk t ti u n c :: rest, h => by
      simp only [treeDistinct, Bool.and_eq_true] at h
      obtain ⟨⟨hnk, _⟩, hrest⟩ := h
      simp only [keysDistinctB, Bool.and_eq_true]
      exact ⟨hnk, treeDistinct_keysDistinctB hrest⟩

/-- Tree-wide key distinctness passes to the children of every member. -/
theorem treeDistinct_children : ∀ {l : List Item},
    treeDistinct l = true → ∀ i ∈ l, treeDistinct i.children = true
  | [], _ => by simp
  | Item.mk t ti u n c :: rest, h => by
      simp only [treeDistinct, Bool.and_eq_true] at h
      obtain ⟨⟨_, hc⟩, hrest⟩ := h
      intro i hi
      rcases List.mem_cons.mp hi with rfl | hi'
      · simpa using hc
      · exact treeDistinct_children hrest i hi'

/-- In the layout built from a key-distinct list, every member's key finds
that member. -/
theorem mapFind_pairOf_self {l : List Item} (hd : keysDistinctB l = true)
    {i : Item} (hm : i ∈ l) :
    mapFind (l.map (fun x => (itemKey x, x))) (itemKey i) = some i := by
  rw [mapFind_keyed (fun x => x), find?_key_self hd hm]
  rfl

/-- Folding a list of items into a mapping that already holds each of them at
its own key leaves the mapping unchanged, provided each item's children merge
to themselves. -/
theorem mergeInto_self_aux : ∀ (post T : List Item),
    (∀ i ∈ post, mapFind (T.map (fun x => (itemKey x, x))) (itemKey i) = some i) →
    (∀ i ∈ post, merge_bookmark_trees i.children i.children = i.children) →
    mergeInto (T.map (fun x => (itemKey x, x))) post = T.map (fun x => (itemKey x, x))
  | [], T, _, _ => mergeInto_nil _
  | i :: rest, T, hfind, hmerge => by
      have hf := hfind i (by simp)
      rw [mergeInto_cons_found rest hf]
      have happ : applyUpd i i = i := by
        unfold applyUpd
        split
        · rw [hmerge i (by simp), Item.withChildren_children_self]
        · rw [Item.withTitle_title_self]
      rw [happ, mapSet_find_self hf]
      exact mergeInto_self_aux rest T (fun x hx => hfind x (by simp [hx]))
        (fun x hx => hmerge x (by simp [hx]))

/-- Self-merge is the identity on trees whose identity keys are pairwise
distinct at every level. -/
theorem merge_self (T : List Item) (h : treeDistinct T = true) :
    merge_bookmark_trees T T = T := by
  have hkd : keysDistinctB T = true := treeDistinct_keysDistinctB h
  have hbuild : buildMap [] T = T.map (fun x => (itemKey x, x)) := by
    have hb := buildMap_nodup T [] hkd (by intro i _; rfl)
    simpa using hb
  have hfind : ∀ i ∈ T, mapFind (T.map (fun x => (itemKey x, x))) (itemKey i) = some i :=
    fun i hi => mapFind_pairOf_self hkd hi
  have hmerge : ∀ i ∈ T, merge_bookmark_trees i.children i.children = i.children := by
    intro i hi
    exact merge_self i.children (treeDistinct_children h i hi)
  rw [merge_bookmark_trees, hbuild, mergeInto_self_aux T T hfind hmerge, List.map_map]
  have h2 : (Prod.snd ∘ fun (x : Item) => (itemKey x, x)) = id := rfl
  rw [h2, List.map_id]
termination_by sizeOf T
decreasing_by
  have h1 : sizeOf i < sizeOf T := List.sizeOf_lt_of_mem hi
  cases i with
  | mk t ti u n c =>
      simp only [Item.children_mk]
      simp only [Item.mk.sizeOf_spec] at h1
      omega

/-- Extraction is a left inverse of building, for both adapters, on canonical
trees (the fuel argument drives the nested induction). -/
theorem roundtrip_aux : ∀ (fuel : Nat) (T : List Item), sizeOf T < fuel →
    canonicalList T = true →
    extract_safari_bookmarks (create_safari_tree T) = T
      ∧ extract_chrome_bookmarks (create_chrome_tree T) = T
  | 0, _, hf, _ => absurd hf (by omega)
  | _ + 1, [], _, _ => by
      constructor
      · simp [create_safari_tree, extract_safari_bookmarks]
      · simp [create_chrome_tree, extract_chrome_bookmarks]
  | fuel + 1, Item.mk ty title url name children :: rest, hf, hc => by
      have hsz : sizeOf rest < fuel ∧ sizeOf children < fuel := by
        simp only [List.cons.sizeOf_spec, Item.mk.sizeOf_spec] at hf
        omega
      simp only [canonicalList, Bool.and_eq_true, Bool.or_eq_true, beq_iff_eq,
        Bool.not_eq_true, beq_eq_false_iff_ne, Option.isNone_iff_eq_none,
        List.isEmpty_eq_true, Option.isSome_iff_exists] at hc
      obtain ⟨hhead, hrest⟩ := hc
      have ihrest := roundtrip_aux fuel rest hsz.1 hrest
      rcases hhead with hurl | hfol
      · obtain ⟨⟨⟨⟨⟨hty, ht⟩, hu⟩, hne⟩, hn⟩, hch⟩ := hurl
        obtain ⟨t, rfl⟩ := ht
        obtain ⟨u, rfl⟩ := hu
        subst hty hn hch
        have hne' : ¬ (u = "") := by simpa using hne
        refine ⟨?_, ?_⟩
        · simp [create_safari_tree, extract_safari_bookmarks, pyTruthy, hne', ihrest.1]
        · simp [create_chrome_tree, extract_chrome_bookmarks, pyTruthy, hne', ihrest.2]
      · obtain ⟨⟨⟨⟨⟨hty, hti⟩, hu⟩, hn⟩, hnrl⟩, hcanc⟩ := hfol
        obtain ⟨n, rfl⟩ := hn
        subst hty hti hu
        have hnrl' : ¬ (n = "com.apple.ReadingList") := by simpa using hnrl
        have ihc := roundtrip_aux fuel children hsz.2 hcanc
        refine ⟨?_, ?_⟩
        · simp [create_safari_tree, extract_safari_bookmarks, hnrl', ihc.1, ihrest.1]
        · simp [create_chrome_tree, extract_chrome_bookmarks, hnrl', ihc.2, ihrest.2]

/-- The Safari extractor never emits a node named `com.apple.ReadingList`,
at any depth. -/
theorem safari_no_readinglist_aux : ∀ (fuel : Nat) (ns : List SNode), sizeOf ns < fuel →
    containsReadingList (extract_safari_bookmarks ns) = false
  | 0, _, hf => absurd hf (by omega)
  | _ + 1, [], _ => by simp [extract_safari_bookmarks, containsReadingList]
  | fuel + 1, SNode.mk wbt us ut tk ch :: rest, hf => by
      have hsz : sizeOf rest < fuel ∧ sizeOf ch < fuel := by
        simp only [List.cons.sizeOf_spec, SNode.mk.sizeOf_spec] at hf
        omega
      have ihrest := safari_no_readinglist_aux fuel rest hsz.1
      have ihch := safari_no_readinglist_aux fuel ch hsz.2
      by_cases h1 : wbt = some "WebBookmarkTypeLeaf"
      · by_cases h2 : pyTruthy us
        · simp [extract_safari_bookmarks, h1, h2, containsReadingList, ihrest]
        · simp [extract_safari_bookmarks, h1, h2, ihrest]
      · by_cases h3 : wbt = some "WebBookmarkTypeList"
        · by_cases h4 : tk.getD "" = "com.apple.ReadingList"
          · simp [extract_safari_bookmarks, h1, h3, h4, ihrest]
          · simp [extract_safari_bookmarks, h1, h3, h4, containsReadingList, ihrest, ihch]
        · simp [extract_safari_bookmarks, h1, h3, ihrest]

/-- Every node the Safari extractor emits is tagged `url` or `folder`. -/
theorem wellTagged_safari_aux : ∀ (fuel : Nat) (ns : List SNode), sizeOf ns < fuel →
    wellTagged (extract_safari_bookmarks ns) = true
  | 0, _, hf => absurd hf (by omega)
  | _ + 1, [], _ => by simp [extract_safari_bookmarks, wellTagged]
  | fuel + 1, SNode.mk wbt us ut tk ch :: rest, hf => by
      have hsz : sizeOf rest < fuel ∧ sizeOf ch < fuel := by
        simp only [List.cons.sizeOf_spec, SNode.mk.sizeOf_spec] at hf
        omega
      have ihrest := wellTagged_safari_aux fuel rest hsz.1
      have ihch := wellTagged_safari_aux fuel ch hsz.2
      by_cases h1 : wbt = some "WebBookmarkTypeLeaf"
      · by_cases h2 : pyTruthy us
        · simp [extract_safari_bookmarks, h1, h2, wellTagged, ihrest]
        · simp [extract_safari_bookmarks, h1, h2, ihrest]
      · by_cases h3 : wbt = some "WebBookmarkTypeList"
        · by_cases h4 : tk.getD "" = "com.apple.ReadingList"
          · simp [extract_safari_bookmarks, h1, h3, h4, ihrest]
          · simp [extract_safari_bookmarks, h1, h3, h4, wellTagged, ihrest, ihch]
        · simp [extract_safari_bookmarks, h1, h3, ihrest]

/-- Every node the Chrome extractor emits is tagged `url` or `folder`. -/
theorem wellTagged_chrome_aux : ∀ (fuel : Nat) (ns : List CNode), sizeOf ns < fuel →
    wellTagged (extract_chrome_bookmarks ns) = true
  | 0, _, hf => absurd hf (by omega)
  | _ + 1, [], _ => by simp [extract_chrome_bookmarks, wellTagged]
  | fuel + 1, CNode.mk ct cu cn ch :: rest, hf => by
      have hsz : sizeOf rest < fuel ∧ sizeOf ch < fuel := by
        simp only [List.cons.sizeOf_spec, CNode.mk.sizeOf_spec] at hf
        omega
      have ihrest := wellTagged_chrome_aux fuel rest hsz.1
      have ihch := wellTagged_chrome_aux fuel ch hsz.2
      by_cases h1 : ct = some "url"
      · by_cases h2 : pyTruthy cu
        · simp [extract_chrome_bookmarks, h1, h2, wellTagged, ihrest]
        · simp [extract_chrome_bookmarks, h1, h2, ihrest]
      · by_cases h3 : ct = some "folder"
        · simp [extract_chrome_bookmarks, h1, h3, wellTagged, ihrest, ihch]
        · simp [extract_chrome_bookmarks, h1, h3, ihrest]

/-- Looking up the key just set returns the new value. -/
theorem mapFind_mapSet_self (m : KMap) (k : String) (v : Item) :
    mapFind (mapSet m k v) k = some v := by
  induction m with
  | nil => simp [mapSet, mapFind]
  | cons p rest ih =>
      obtain ⟨a, b⟩ := p
      by_cases hak : a = k
      · simp [mapSet, mapFind, hak]
      · simp [mapSet, mapFind, hak, ih]

/-- Setting one key leaves lookups of other keys unchanged. -/
theorem mapFind_mapSet_ne {m : KMap} {k' k : String} (v : Item) (h : k' ≠ k) :
    mapFind (mapSet m k' v) k = mapFind m k := by
  induction m with
  | nil => simp [mapSet, mapFind, h]
  | cons p rest ih =>
      obtain ⟨a, b⟩ := p
      by_cases hak : a = k'
      · simp [mapSet, mapFind, hak, h]
      · simp [mapSet, mapFind, hak, ih]

/-- Two successive writes to the same key collapse to the last one. -/
theorem mapSet_mapSet_same (m : KMap) (k : String) (v1 v2 : Item) :
    mapSet (mapSet m k v1) k v2 = mapSet m k v2 := by
  induction m with
  | nil => simp [mapSet]
  | cons p rest ih =>
      obtain ⟨a, b⟩ := p
      by_cases hak : a = k
      · simp [mapSet, hak]
      · simp [mapSet, hak, ih]

/-- Writes to two distinct keys commute, provided the first key is already
present (so neither order appends it at the end). -/
theorem mapSet_swap : ∀ (m : KMap) (k : String) (w : Item), mapFind m k = some w →
    ∀ (k' : String), k' ≠ k → ∀ (v v' : Item),
      mapSet (mapSet m k v) k' v' = mapSet (mapSet m k' v') k v
  | [], k, w, hw, _, _, _, _ => by simp [mapFind] at hw
  | (a, b) :: rest, k, w, hw, k', hne, v, v' => by
      by_cases hak : a = k
      · simp [mapSet, hak, Ne.symm hne]
      · have hw' : mapFind rest k = some w := by
          simpa [mapFind, hak] using hw
        by_cases hak' : a = k'
        · simp [mapSet, hak, hak', hne]
        · simp [mapSet, hak, hak', mapSet_swap rest k w hw' k' hne v v']

/-- The first merge loop over a concatenation is the composition of the loops
over the parts. -/
theorem buildMap_append : ∀ (a b : List Item) (m : KMap),
    buildMap m (a ++ b) = buildMap (buildMap m a) b
  | [], _, _ => rfl
  | x :: a', b, m => by
      simp only [List.cons_append, buildMap]
      exact buildMap_append a' b _

/-- Overwriting a key that is already present commutes with folding in items
that carry other keys. -/
theorem buildMap_mapSet_comm : ∀ (mid : List Item) (M : KMap) (k : String) (w v : Item),
    mapFind M k = some w → (∀ x ∈ mid, itemKey x ≠ k) →
    mapSet (buildMap M mid) k v = buildMap (mapSet M k v) mid
  | [], _, _, _, _, _, _ => rfl
  | x :: mid', M, k, w, v, hw, hmid => by
      have hkx : itemKey x ≠ k := hmid x (by simp)
      have hw' : mapFind (mapSet M (itemKey x) x) k = some w := by
        rw [mapFind_mapSet_ne x hkx]
        exact hw
      simp only [buildMap]
      rw [buildMap_mapSet_comm mid' (mapSet M (itemKey x) x) k w v hw'
          (fun y hy => hmid y (by simp [hy]))]
      rw [← mapSet_swap M k w hw (itemKey x) hkx v x]

/-- The first merge loop collapses a duplicated key: a later item with the
same key as an earlier one (and no intervening item carrying that key)
replaces the earlier one in place, so the loop behaves as if the earlier item
had been the later one all along. -/
theorem buildMap_collapse (m : KMap) (mid post : List Item) (f1 f2 : Item)
    (hk : itemKey f1 = itemKey f2) (hmid : ∀ x ∈ mid, itemKey x ≠ itemKey f2) :
    buildMap m (f1 :: (mid ++ (f2 :: post))) = buildMap m (f2 :: (mid ++ post)) := by
  conv_lhs => rw [buildMap, hk, buildMap_append, buildMap]
  conv_rhs => rw [buildMap, buildMap_append]
  rw [buildMap_mapSet_comm mid (mapSet m (itemKey f2) f1) (itemKey f2) f1 f2
      (mapFind_mapSet_self m (itemKey f2) f1) hmid,
    mapSet_mapSet_same]

/-! The claims. -/

/-- C1 is false as stated: the key spaces are not disjoint for arbitrary
literal strings.  A Folder named `Work` and a Bookmark whose URL is literally
`folder_Work` receive the same identity key, and `merge_bookmark_trees` then
folds the bookmark into the folder: the folder's dict acquires the bookmark's
title. -/
theorem c1_counterexample :
    itemKey (mkFolder "Work" []) = itemKey (mkUrl "T" "folder_Work")
      ∧ merge_bookmark_trees [mkFolder "Work" []] [mkUrl "T" "folder_Work"]
          = [Item.mk "folder" (some "T") none (some "Work") []] := by
  constructor
  · simp
  · simp [merge_bookmark_trees, mergeInto, buildMap, mapSet, mapFind, itemKey,
      mkUrl, mkFolder]

/-- C1 amended: a Folder's identity key is distinct from a Bookmark's identity
key provided the Bookmark's URL is not literally the string `folder_` followed
by the Folder's name; under that proviso a Bookmark can never match, overwrite,
or be folded into a Folder entry in `merge_bookmark_trees`. -/
theorem c1_amended_disjoint_keys (fo bk : Item) (hf : fo.ty = "folder")
    (hb : bk.ty ≠ "folder")
    (hu : bk.url.getD "" ≠ "folder_" ++ fo.name.getD "") :
    itemKey fo ≠ itemKey bk := by
  simp only [itemKey, if_pos hf, if_neg hb]
  exact fun h => hu h.symm

/-- C1 witness: the amended disjointness at a concrete folder/bookmark pair. -/
theorem c1_witness :
    itemKey (mkFolder "Work" []) ≠ itemKey (mkUrl "T" "https://x") :=
  c1_amended_disjoint_keys (mkFolder "Work" []) (mkUrl "T" "https://x")
    rfl (by decide) (by decide)

/-- C2 is false as stated: with two sibling folders of the same name in the
primary tree, the first loop of the merge overwrites the mapping entry, so the
first folder's content is discarded (not kept as canonical) and the later
sibling's children are not folded into it. -/
theorem c2_counterexample :
    merge_bookmark_trees
        [mkFolder "Work" [mkUrl "A" "https://a"], mkFolder "Work" [mkUrl "B" "https://b"]] []
      = [mkFolder "Work" [mkUrl "B" "https://b"]]
    ∧ merge_bookmark_trees
        [mkFolder "Work" [mkUrl "A" "https://a"], mkFolder "Work" [mkUrl "B" "https://b"]] []
      ≠ [mkFolder "Work" [mkUrl "A" "https://a", mkUrl "B" "https://b"]] := by
  have h : merge_bookmark_trees
      [mkFolder "Work" [mkUrl "A" "https://a"], mkFolder "Work" [mkUrl "B" "https://b"]] []
      = [mkFolder "Work" [mkUrl "B" "https://b"]] := by
    simp [merge_bookmark_trees, mergeInto, buildMap, mapSet, mapFind, itemKey,
      mkUrl, mkFolder]
  refine ⟨h, ?_⟩
  rw [h]
  simp [mkFolder, mkUrl]

/-- C2 amended: whenever the primary tree contains two sibling Folders `f1`
and `f2` with the same name at the same level (no sibling between them carries
that key), the merge — with arbitrary surrounding siblings `pre`, `mid`,
`post` and an arbitrary secondary tree `s` — behaves exactly as if the earlier
folder had been replaced by the later sibling at the earlier folder's
position: the earlier folder's content is discarded, not folded. -/
theorem c2_amended_last_duplicate_wins (pre mid post s : List Item) (f1 f2 : Item)
    (h1 : f1.ty = "folder") (h2 : f2.ty = "folder") (hn : f1.name = f2.name)
    (hmid : ∀ x ∈ mid, itemKey x ≠ itemKey f2) :
    merge_bookmark_trees (pre ++ (f1 :: (mid ++ (f2 :: post)))) s
      = merge_bookmark_trees (pre ++ (f2 :: (mid ++ post))) s := by
  have hk : itemKey f1 = itemKey f2 := by
    simp [itemKey, h1, h2, hn]
  rw [merge_bookmark_trees, merge_bookmark_trees, buildMap_append, buildMap_append,
    buildMap_collapse (buildMap [] pre) mid post f1 f2 hk hmid]

/-- C2 witness: the amended statement at a concrete primary with surrounding
siblings and a nonempty secondary. -/
theorem c2_witness :
    merge_bookmark_trees
        ([mkUrl "X" "https://x"]
          ++ (mkFolder "W" [mkUrl "A" "https://a"]
            :: ([mkUrl "Y" "https://y"]
              ++ (mkFolder "W" [mkUrl "B" "https://b"] :: [mkUrl "Z" "https://z"]))))
        [mkUrl "S" "https://s"]
      = merge_bookmark_trees
          ([mkUrl "X" "https://x"]
            ++ (mkFolder "W" [mkUrl "B" "https://b"]
              :: ([mkUrl "Y" "https://y"] ++ [mkUrl "Z" "https://z"])))
          [mkUrl "S" "https://s"] :=
  c2_amended_last_duplicate_wins [mkUrl "X" "https://x"] [mkUrl "Y" "https://y"]
    [mkUrl "Z" "https://z"] [mkUrl "S" "https://s"]
    (mkFolder "W" [mkUrl "A" "https://a"]) (mkFolder "W" [mkUrl "B" "https://b"])
    rfl rfl rfl (by decide)

/-- C3 is false as stated: a canonical tree is allowed to hold a Bookmark with
an empty URL string, it contains no reading-list folder, yet both builders
produce a leaf with an empty (falsy) URL which both extractors silently drop,
so the round trip loses the node. -/
theorem c3_counterexample :
    extract_safari_bookmarks (create_safari_tree [Item.mk "url" (some "x") (some "") none []])
        ≠ [Item.mk "url" (some "x") (some "") none []]
      ∧ extract_chrome_bookmarks (create_chrome_tree [Item.mk "url" (some "x") (some "") none []])
        ≠ [Item.mk "url" (some "x") (some "") none []] := by
  constructor
  · simp [create_safari_tree, extract_safari_bookmarks, pyTruthy]
  · simp [create_chrome_tree, extract_chrome_bookmarks, pyTruthy]

/-- C3 amended: for every canonical tree — well-shaped Bookmark/Folder dicts
with a nonempty URL on every Bookmark — containing no reading-list-named
folder, extraction after building returns the tree exactly, independently for
the Safari adapter pair and the Chrome adapter pair. -/
theorem c3_amended_roundtrip (T : List Item) (h : canonicalList T = true) :
    extract_safari_bookmarks (create_safari_tree T) = T
      ∧ extract_chrome_bookmarks (create_chrome_tree T) = T :=
  roundtrip_aux (sizeOf T + 1) T (by omega) h

/-- C3 witness: the round trip at a concrete canonical tree. -/
theorem c3_witness :
    extract_safari_bookmarks (create_safari_tree
        [mkFolder "Work" [mkUrl "A" "https://a"], mkUrl "B" "https://b"])
      = [mkFolder "Work" [mkUrl "A" "https://a"], mkUrl "B" "https://b"]
    ∧ extract_chrome_bookmarks (create_chrome_tree
        [mkFolder "Work" [mkUrl "A" "https://a"], mkUrl "B" "https://b"])
      = [mkFolder "Work" [mkUrl "A" "https://a"], mkUrl "B" "https://b"] :=
  c3_amended_roundtrip [mkFolder "Work" [mkUrl "A" "https://a"], mkUrl "B" "https://b"]
    (by simp [canonicalList, mkFolder, mkUrl])

/-- C4 is false as stated: a canonical tree may contain two sibling folders
with the same name (the data model explicitly allows duplicate folder names),
and self-merging such a tree collapses the two siblings into one whose
children are the merge of the two child lists in mapping order, so
`merge(T, T) ≠ T`. -/
theorem c4_counterexample :
    merge_bookmark_trees
        [mkFolder "W" [mkUrl "A" "https://a"], mkFolder "W" [mkUrl "B" "https://b"]]
        [mkFolder "W" [mkUrl "A" "https://a"], mkFolder "W" [mkUrl "B" "https://b"]]
      = [mkFolder "W" [mkUrl "B" "https://b", mkUrl "A" "https://a"]]
    ∧ merge_bookmark_trees
        [mkFolder "W" [mkUrl "A" "https://a"], mkFolder "W" [mkUrl "B" "https://b"]]
        [mkFolder "W" [mkUrl "A" "https://a"], mkFolder "W" [mkUrl "B" "https://b"]]
      ≠ [mkFolder "W" [mkUrl "A" "https://a"], mkFolder "W" [mkUrl "B" "https://b"]] := by
  have h : merge_bookmark_trees
      [mkFolder "W" [mkUrl "A" "https://a"], mkFolder "W" [mkUrl "B" "https://b"]]
      [mkFolder "W" [mkUrl "A" "https://a"], mkFolder "W" [mkUrl "B" "https://b"]]
      = [mkFolder "W" [mkUrl "B" "https://b", mkUrl "A" "https://a"]] := by
    simp [merge_bookmark_trees, mergeInto, buildMap, mapSet, mapFind, itemKey,
      mkUrl, mkFolder, Item.withChildren, Item.withTitle, applyUpd]
  refine ⟨h, ?_⟩
  rw [h]
  simp [mkFolder, mkUrl]

/-- C4 amended: self-merge is the identity on every canonical tree whose
identity keys are pairwise distinct at each level:
`merge_bookmark_trees T T = T`. -/
theorem c4_amended_self_merge (T : List Item) (h : treeDistinct T = true) :
    merge_bookmark_trees T T = T :=
  merge_self T h

/-- C4 witness: self-merge at a concrete duplicate-free tree. -/
theorem c4_witness :
    merge_bookmark_trees
        [mkFolder "W" [mkUrl "A" "https://a"], mkUrl "B" "https://b"]
        [mkFolder "W" [mkUrl "A" "https://a"], mkUrl "B" "https://b"]
      = [mkFolder "W" [mkUrl "A" "https://a"], mkUrl "B" "https://b"] :=
  c4_amended_self_merge [mkFolder "W" [mkUrl "A" "https://a"], mkUrl "B" "https://b"]
    (by simp [treeDistinct, noKey, itemKey, mkFolder, mkUrl])

/-- C5 is false as stated: when primary itself holds two entries with the same
identity key, the mapping collapses them, so the output does not list all of
primary's entries. -/
theorem c5_counterexample :
    merge_bookmark_trees [mkUrl "A" "https://u", mkUrl "B" "https://u"] []
      = [mkUrl "B" "https://u"]
    ∧ merge_bookmark_trees [mkUrl "A" "https://u", mkUrl "B" "https://u"] []
      ≠ [mkUrl "A" "https://u", mkUrl "B" "https://u"] := by
  have h : merge_bookmark_trees [mkUrl "A" "https://u", mkUrl "B" "https://u"] []
      = [mkUrl "B" "https://u"] := by
    simp [merge_bookmark_trees, mergeInto, buildMap, mapSet, mapFind, itemKey, mkUrl]
  refine ⟨h, ?_⟩
  rw [h]
  simp [mkUrl]

/-- C5 amended: when the identity keys are pairwise distinct on each side's
top level, the merge output is primary's entries first, in order, each with
its in-place folder/title update applied, followed by exactly the entries of
secondary whose keys are absent from primary, once each, in their original
relative order. -/
theorem c5_amended_merge_order (p s : List Item)
    (hp : keysDistinctB p = true) (hs : keysDistinctB s = true) :
    merge_bookmark_trees p s = p.map (updBy s) ++ s.filter (fun x => newIn p x) :=
  merge_structure p s hp hs

/-- C5 witness: the order law at a concrete pair with one shared bookmark and
one strictly-new bookmark. -/
theorem c5_witness :
    merge_bookmark_trees [mkUrl "A" "https://a", mkUrl "C" "https://c"]
        [mkUrl "C2" "https://c", mkUrl "B" "https://b"]
      = [mkUrl "A" "https://a", mkUrl "C" "https://c"].map
            (updBy [mkUrl "C2" "https://c", mkUrl "B" "https://b"])
          ++ [mkUrl "C2" "https://c", mkUrl "B" "https://b"].filter
            (fun x => newIn [mkUrl "A" "https://a", mkUrl "C" "https://c"] x) :=
  c5_amended_merge_order [mkUrl "A" "https://a", mkUrl "C" "https://c"]
    [mkUrl "C2" "https://c", mkUrl "B" "https://b"]
    (by simp [keysDistinctB, noKey, itemKey, mkUrl])
    (by simp [keysDistinctB, noKey, itemKey, mkUrl])

/-- C6: when a Bookmark's key is present in both trees (each level's keys
being unambiguous), the merge keeps primary's node at its original position
with only the `title` field overwritten by secondary's title; the `url` field
is unchanged.  The spec's concrete instance is included:
`merge([{url: https://x, title: Old}], [{url: https://x, title: New}])`
equals `[{url: https://x, title: New}]`. -/
theorem c6_title_overwrite (p s : List Item) (n : Nat) (i j : Item)
    (hp : keysDistinctB p = true) (hs : keysDistinctB s = true)
    (hn : p[n]? = some i) (hi : i.ty = "url")
    (hj : j ∈ s) (hjt : j.ty = "url") (hk : itemKey j = itemKey i) :
    (merge_bookmark_trees p s)[n]? = some (i.withTitle j.title)
      ∧ (i.withTitle j.title).url = i.url
      ∧ merge_bookmark_trees [mkUrl "Old" "https://x"] [mkUrl "New" "https://x"]
          = [mkUrl "New" "https://x"] := by
  have hlen : n < p.length := by
    rcases List.getElem?_eq_some_iff.mp hn with ⟨h, _⟩
    exact h
  have hf : s.find? (fun x => itemKey x == itemKey i) = some j := by
    rw [← hk]
    exact find?_key_self hs hj
  have hupd : updBy s i = i.withTitle j.title := by
    simp only [updBy, hf]
    simp [applyUpd, hjt]
  refine ⟨?_, ?_, ?_⟩
  · rw [merge_structure p s hp hs, List.getElem?_append_left (by simpa using hlen),
      List.getElem?_map, hn]
    simp [hupd]
  · cases i
    simp
  · simp [merge_bookmark_trees, mergeInto, buildMap, mapSet, mapFind, itemKey, mkUrl]

/-- C6 witness: the theorem applied at the spec's own concrete primary and
secondary. -/
theorem c6_witness :
    (merge_bookmark_trees [mkUrl "Old" "https://x"] [mkUrl "New" "https://x"])[0]?
        = some ((mkUrl "Old" "https://x").withTitle (mkUrl "New" "https://x").title)
      ∧ ((mkUrl "Old" "https://x").withTitle (mkUrl "New" "https://x").title).url
          = (mkUrl "Old" "https://x").url
      ∧ merge_bookmark_trees [mkUrl "Old" "https://x"] [mkUrl "New" "https://x"]
          = [mkUrl "New" "https://x"] :=
  c6_title_overwrite [mkUrl "Old" "https://x"] [mkUrl "New" "https://x"] 0
    (mkUrl "Old" "https://x") (mkUrl "New" "https://x")
    (by simp [keysDistinctB, noKey]) (by simp [keysDistinctB, noKey])
    rfl rfl (by simp) rfl rfl

/-- C7: when a Folder's key is present in both trees (each level's keys being
unambiguous), the merge keeps primary's folder node — its name and its
position — and replaces its children with the recursive merge of the two
folders' children.  The spec's concrete instance is included: merging
`[Folder(Work, [Bookmark(https://a)])]` with
`[Folder(Work, [Bookmark(https://b)])]` yields exactly one folder `Work`
holding both bookmarks. -/
theorem c7_folder_merge (p s : List Item) (n : Nat) (i j : Item)
    (hp : keysDistinctB p = true) (hs : keysDistinctB s = true)
    (hn : p[n]? = some i) (hi : i.ty = "folder")
    (hj : j ∈ s) (hjt : j.ty = "folder") (hk : itemKey j = itemKey i) :
    (merge_bookmark_trees p s)[n]?
        = some (i.withChildren (merge_bookmark_trees i.children j.children))
      ∧ (i.withChildren (merge_bookmark_trees i.children j.children)).name = i.name
      ∧ merge_bookmark_trees [mkFolder "Work" [mkUrl "a" "https://a"]]
            [mkFolder "Work" [mkUrl "b" "https://b"]]
          = [mkFolder "Work" [mkUrl "a" "https://a", mkUrl "b" "https://b"]] := by
  have hlen : n < p.length := by
    rcases List.getElem?_eq_some_iff.mp hn with ⟨h, _⟩
    exact h
  have hf : s.find? (fun x => itemKey x == itemKey i) = some j := by
    rw [← hk]
    exact find?_key_self hs hj
  have hupd : updBy s i = i.withChildren (merge_bookmark_trees i.children j.children) := by
    simp only [updBy, hf]
    simp [applyUpd, hjt]
  refine ⟨?_, ?_, ?_⟩
  · rw [merge_structure p s hp hs, List.getElem?_append_left (by simpa using hlen),
      List.getElem?_map, hn]
    simp [hupd]
  · cases i
    simp
  · simp [merge_bookmark_trees, mergeInto, buildMap, mapSet, mapFind, itemKey,
      mkUrl, mkFolder, applyUpd]

/-- C7 witness: the theorem applied at the spec's own concrete primary and
secondary. -/
theorem c7_witness :
    (merge_bookmark_trees [mkFolder "Work" [mkUrl "a" "https://a"]]
          [mkFolder "Work" [mkUrl "b" "https://b"]])[0]?
        = some ((mkFolder "Work" [mkUrl "a" "https://a"]).withChildren
            (merge_bookmark_trees (mkFolder "Work" [mkUrl "a" "https://a"]).children
              (mkFolder "Work" [mkUrl "b" "https://b"]).children))
      ∧ ((mkFolder "Work" [mkUrl "a" "https://a"]).withChildren
            (merge_bookmark_trees (mkFolder "Work" [mkUrl "a" "https://a"]).children
              (mkFolder "Work" [mkUrl "b" "https://b"]).children)).name
          = (mkFolder "Work" [mkUrl "a" "https://a"]).name
      ∧ merge_bookmark_trees [mkFolder "Work" [mkUrl "a" "https://a"]]
            [mkFolder "Work" [mkUrl "b" "https://b"]]
          = [mkFolder "Work" [mkUrl "a" "https://a", mkUrl "b" "https://b"]] :=
  c7_folder_merge [mkFolder "Work" [mkUrl "a" "https://a"]]
    [mkFolder "Work" [mkUrl "b" "https://b"]] 0
    (mkFolder "Work" [mkUrl "a" "https://a"]) (mkFolder "Work" [mkUrl "b" "https://b"])
    (by simp [keysDistinctB, noKey]) (by simp [keysDistinctB, noKey])
    rfl rfl (by simp) rfl rfl

/-- C8 is false as stated: only the Safari extractor checks for the reserved
reading-list name.  The Chrome extractor emits a folder named
`com.apple.ReadingList` into the canonical tree unchanged. -/
theorem c8_counterexample :
    extract_chrome_bookmarks [CNode.mk (some "folder") none (some "com.apple.ReadingList") []]
        = [mkFolder "com.apple.ReadingList" []]
      ∧ containsReadingList (extract_chrome_bookmarks
          [CNode.mk (some "folder") none (some "com.apple.ReadingList") []]) = true := by
  constructor
  · simp [extract_chrome_bookmarks, mkFolder]
  · simp [extract_chrome_bookmarks, containsReadingList]

/-- C8 amended: the Safari extractor never emits a node named
`com.apple.ReadingList` into the canonical tree, at any nesting depth; the
Chrome extractor and the two builders perform no such exclusion. -/
theorem c8_amended_safari_exclusion (ns : List SNode) :
    containsReadingList (extract_safari_bookmarks ns) = false :=
  safari_no_readinglist_aux (sizeOf ns + 1) ns (by omega)

/-- C9: a leaf node whose URL value is missing produces no canonical node, for
either adapter; extraction returns normally and processes the remaining
siblings. -/
theorem c9_drop_missing_url (sn : SNode) (srest : List SNode)
    (cn : CNode) (crest : List CNode)
    (hs : sn.webBookmarkType = some "WebBookmarkTypeLeaf") (hsu : sn.urlString = none)
    (hc : cn.ctype = some "url") (hcu : cn.url = none) :
    extract_safari_bookmarks (sn :: srest) = extract_safari_bookmarks srest
      ∧ extract_chrome_bookmarks (cn :: crest) = extract_chrome_bookmarks crest := by
  cases sn with
  | mk wbt us ut tk ch =>
      cases cn with
      | mk ct cu cname cch =>
          simp only [SNode.webBookmarkType] at hs
          simp only [SNode.urlString] at hsu
          simp only [CNode.ctype] at hc
          simp only [CNode.url] at hcu
          subst hs hsu hc hcu
          constructor
          · simp [extract_safari_bookmarks, pyTruthy]
          · simp [extract_chrome_bookmarks, pyTruthy]

/-- C9 witness: the theorem at a concrete URL-less Safari leaf and Chrome
leaf, each followed by a sibling. -/
theorem c9_witness :
    extract_safari_bookmarks
        [SNode.mk (some "WebBookmarkTypeLeaf") none (some "t") none [],
          SNode.mk (some "WebBookmarkTypeLeaf") (some "https://a") none none []]
      = extract_safari_bookmarks
          [SNode.mk (some "WebBookmarkTypeLeaf") (some "https://a") none none []]
    ∧ extract_chrome_bookmarks
        [CNode.mk (some "url") none (some "t") [],
          CNode.mk (some "url") (some "https://a") (some "A") []]
      = extract_chrome_bookmarks
          [CNode.mk (some "url") (some "https://a") (some "A") []] :=
  c9_drop_missing_url (SNode.mk (some "WebBookmarkTypeLeaf") none (some "t") none [])
    [SNode.mk (some "WebBookmarkTypeLeaf") (some "https://a") none none []]
    (CNode.mk (some "url") none (some "t") [])
    [CNode.mk (some "url") (some "https://a") (some "A") []]
    rfl rfl rfl rfl

/-- C10: each extractor emits output only for nodes whose type discriminator
is one of the two recognized values; a node with a missing or unrecognized
discriminator is skipped without error, and every node of the canonical tree
is tagged `url` or `folder` at every depth. -/
theorem c10_unrecognized_skipped (sn : SNode) (srest : List SNode)
    (cn : CNode) (crest : List CNode)
    (h1 : sn.webBookmarkType ≠ some "WebBookmarkTypeLeaf")
    (h2 : sn.webBookmarkType ≠ some "WebBookmarkTypeList")
    (h3 : cn.ctype ≠ some "url") (h4 : cn.ctype ≠ some "folder") :
    extract_safari_bookmarks (sn :: srest) = extract_safari_bookmarks srest
      ∧ extract_chrome_bookmarks (cn :: crest) = extract_chrome_bookmarks crest
      ∧ wellTagged (extract_safari_bookmarks srest) = true
      ∧ wellTagged (extract_chrome_bookmarks crest) = true := by
  refine ⟨?_, ?_, wellTagged_safari_aux (sizeOf srest + 1) srest (by omega),
    wellTagged_chrome_aux (sizeOf crest + 1) crest (by omega)⟩
  · cases sn with
    | mk wbt us ut tk ch =>
        simp only [SNode.webBookmarkType] at h1 h2
        simp [extract_safari_bookmarks, h1, h2]
  · cases cn with
    | mk ct cu cname cch =>
        simp only [CNode.ctype] at h3 h4
        simp [extract_chrome_bookmarks, h3, h4]

/-- C10 witness: the theorem at concrete discriminator-less nodes (a Safari
proxy node and a Chrome node with no type key). -/
theorem c10_witness :
    extract_safari_bookmarks
        [SNode.mk (some "WebBookmarkTypeProxy") none none none [],
          SNode.mk (some "WebBookmarkTypeLeaf") (some "https://a") none none []]
      = extract_safari_bookmarks
          [SNode.mk (some "WebBookmarkTypeLeaf") (some "https://a") none none []]
    ∧ extract_chrome_bookmarks
        [CNode.mk none (some "https://a") (some "A") [],
          CNode.mk (some "url") (some "https://a") (some "A") []]
      = extract_chrome_bookmarks
          [CNode.mk (some "url") (some "https://a") (some "A") []]
    ∧ wellTagged (extract_safari_bookmarks
        [SNode.mk (some "WebBookmarkTypeLeaf") (some "https://a") none none []]) = true
    ∧ wellTagged (extract_chrome_bookmarks
        [CNode.mk (some "url") (some "https://a") (some "A") []]) = true :=
  c10_unrecognized_skipped
    (SNode.mk (some "WebBookmarkTypeProxy") none none none [])
    [SNode.mk (some "WebBookmarkTypeLeaf") (some "https://a") none none []]
    (CNode.mk none (some "https://a") (some "A") [])
    [CNode.mk (some "url") (some "https://a") (some "A") []]
    (by simp [SNode.webBookmarkType]) (by simp [SNode.webBookmarkType])
    (by simp [CNode.ctype]) (by simp [CNode.ctype])

end BookmarkSync
